import Mathlib

/-!
A shallow embedding of the PyLOB limit order book (`limit_order_book.py`).

The Python classes `Order`, `LimitLevel`, `LimitOrderBook` and `Trader` are
modelled as Lean structures.  Python's `SortedDict` side indices are modelled
as lists of `LimitLevel` kept sorted strictly ascending by price (as the
`SortedDict` keeps its keys); `peekitem(0)` is `List.head?` and `peekitem()`
(index -1) is `List.getLast?`.  The order registry (a `dict`) is an
association list keyed by order id.  `Trader` objects are identified by a
`Nat` token, and Python's `is` identity test on traders becomes equality of
`Option Nat`.  Mutation becomes explicit state passing on `LimitOrderBook`.
The unbounded `while` loop of `_match_orders` and the mutual recursion
`_add_order` / `_match_orders` / `update` / `bid` / `ask` are given an
explicit fuel parameter; public entry points supply enough fuel for every
reachable state, and fuel exhaustion simply stops (invariant theorems are
proved for every fuel value).  The `alloc_log` field is a ghost field
recording, in order, every id handed out at the two allocation sites
(`bid` / `ask`); it instruments but never influences the computation.
-/

/-- Python class `Order` (trader held by identity token). -/
structure Order where
  is_bid : Bool
  quantity : Int
  price : Int
  id : Nat
  trader : Option Nat
deriving DecidableEq

/-- Python class `Trader`: a cash balance and an inventory map. -/
structure Trader where
  balance : Int
  owned : String → Option Int

/-- Python class `LimitLevel`: one price level, a FIFO of order ids and a
cached aggregate quantity. -/
structure LimitLevel where
  price : Int
  orders : List Nat
  quantity : Int
deriving DecidableEq

/-- Python class `LimitOrderBook` (the lock is dropped: the embedding is
sequential).  `alloc_log` is a ghost field recording allocated ids. -/
structure LimitOrderBook where
  bids : List LimitLevel
  asks : List LimitLevel
  orders : List (Nat × Order)
  order_id : Nat
  asset : String
  record_match_history : Bool
  match_history : List (Order × Order)
  traders : Nat → Trader
  alloc_log : List Nat

/-- Errors surfaced by `LOBException` raises in the source. -/
inductive Err where
  | unknownOrder
  | notOwner
  | duplicateId
deriving DecidableEq

/-- Registry lookup: `order_id in self.orders` / `self.orders[order_id]`. -/
def lookupAssoc {α : Type} : List (Nat × α) → Nat → Option α
  | [], _ => none
  | (k, v) :: rest, id => if k = id then some v else lookupAssoc rest id

/-- Registry entry mutation (the keyed `Order` object is mutated in place in
Python; keys are unique so modifying the first match is faithful). -/
def modifyAssoc {α : Type} : List (Nat × α) → Nat → (α → α) → List (Nat × α)
  | [], _, _ => []
  | (k, v) :: rest, id, f =>
      if k = id then (k, f v) :: rest else (k, v) :: modifyAssoc rest id f

/-- Registry deletion: `del self.orders[order_id]`. -/
def eraseAssoc {α : Type} : List (Nat × α) → Nat → List (Nat × α)
  | [], _ => []
  | (k, v) :: rest, id => if k = id then rest else (k, v) :: eraseAssoc rest id

/-- `price in order_tree` / `order_tree[price]` on a side index. -/
def treeLookup : List LimitLevel → Int → Option LimitLevel
  | [], _ => none
  | l :: rest, p => if l.price = p then some l else treeLookup rest p

/-- In-place mutation of the `LimitLevel` object stored at a price key. -/
def treeModify : List LimitLevel → Int → (LimitLevel → LimitLevel) → List LimitLevel
  | [], _, _ => []
  | l :: rest, p, f => if l.price = p then f l :: rest else l :: treeModify rest p f

/-- `del order_tree[price]`. -/
def treeDelete : List LimitLevel → Int → List LimitLevel
  | [], _ => []
  | l :: rest, p => if l.price = p then rest else l :: treeDelete rest p

/-- `order_tree[price] = level` on a fresh key: the `SortedDict` places the
new key in ascending position (on an existing key it would overwrite; call
sites guard that off). -/
def treeInsert : List LimitLevel → LimitLevel → List LimitLevel
  | [], lv => [lv]
  | l :: rest, lv =>
      if lv.price < l.price then lv :: l :: rest
      else if lv.price = l.price then lv :: rest
      else l :: treeInsert rest lv

/-- The opposing side index for an order (`self.asks if order.is_bid else
self.bids`). -/
def oppTree (b : LimitOrderBook) (o : Order) : List LimitLevel :=
  if o.is_bid then b.asks else b.bids

/-- Write the opposing side index back. -/
def setOppTree (b : LimitOrderBook) (o : Order) (t : List LimitLevel) : LimitOrderBook :=
  if o.is_bid then { b with asks := t } else { b with bids := t }

/-- `self.best_bid`: `self.bids.peekitem()[1]`, the maximal key of the
sorted dict, i.e. the last level of the ascending list. -/
def best_bid (b : LimitOrderBook) : Option LimitLevel := b.bids.getLast?

/-- `self.best_ask`: `self.asks.peekitem(0)[1]`, the minimal key. -/
def best_ask (b : LimitOrderBook) : Option LimitLevel := b.asks.head?

/-- `LimitOrderBook.cancel` (source lines 416-425).  Total where the source
would raise `KeyError` on a registry entry whose price level is missing
(unreachable; the source raises before mutating, so returning the book
unchanged matches the post-exception state). -/
def cancelB (b : LimitOrderBook) (order_id : Nat) (trader : Option Nat) : LimitOrderBook :=
  match lookupAssoc b.orders order_id with
  | none => b
  | some o =>
    if o.trader = trader then
      let tree := if o.is_bid then b.bids else b.asks
      match treeLookup tree o.price with
      | none => b
      | some lv =>
        let newq := lv.quantity - o.quantity
        let tree' :=
          if newq ≤ 0 then treeDelete tree o.price
          else treeModify tree o.price (fun l => { l with quantity := l.quantity - o.quantity })
        let b1 := if o.is_bid then { b with bids := tree' } else { b with asks := tree' }
        { b1 with orders := eraseAssoc b1.orders order_id }
    else b

/-- One balance-and-inventory adjustment to the trader identified by `i`
(`trader.balance += db`; `trader.owned[asset] += dq` with creation on first
touch). -/
def adjustTrader (ts : Nat → Trader) (i : Nat) (db dq : Int) (asset : String) :
    Nat → Trader :=
  fun k =>
    if k = i then
      { balance := (ts i).balance + db,
        owned := fun a =>
          if a = asset then
            match (ts i).owned asset with
            | some v => some (v + dq)
            | none => some dq
          else (ts i).owned a }
    else ts k

/-- The settlement block of `_match_orders` (source lines 211-240 and
251-282; both copies have this shape with `traded` the quantity filled):
the incoming order's trader pays `order_multiplier * head.price * traded`
and gains `order_multiplier * traded` inventory; the head order's trader
gets the opposite. -/
def settle (asset : String) (ts : Nat → Trader) (o h : Order) (traded : Int) :
    Nat → Trader :=
  let om : Int := if o.is_bid then 1 else -1
  let mm : Int := if o.is_bid then -1 else 1
  let ts1 :=
    match o.trader with
    | some i => adjustTrader ts i (-om * h.price * traded) (om * traded) asset
    | none => ts
  match h.trader with
  | some j => adjustTrader ts1 j (-mm * h.price * traded) (mm * traded) asset
  | none => ts1

/-- Inventory of one asset, absent entries reading as 0. -/
def ownedQty (t : Trader) (asset : String) : Int := ((t.owned asset).getD 0)

/-- The tail of `_match_orders`' loop body after the head is resolved
(source lines 289-294): cancel the incoming order if it is spent and
registered, then `_pop_limit` + registry delete of the head if the head is
spent and registered.  `hq` is the (already written back) quantity of the
head order object; `headId` its id; `lp` the level's price. -/
def postFill (b : LimitOrderBook) (o : Order) (lp : Int) (headId : Nat) (hq : Int) :
    LimitOrderBook × Order :=
  let b1 :=
    if o.quantity = 0 ∧ (lookupAssoc b.orders o.id).isSome then cancelB b o.id none else b
  let b2 :=
    if hq = 0 ∧ (lookupAssoc b1.orders headId).isSome then
      match treeLookup (oppTree b1 o) lp with
      | none => b1
      | some lv =>
        match lv.orders with
        | [] => b1
        | r :: _ =>
          let dq := match lookupAssoc b1.orders r with | some od => od.quantity | none => 0
          let b2 := setOppTree b1 o
            (treeModify (oppTree b1 o) lp
              (fun l => { l with orders := l.orders.tail, quantity := l.quantity - dq }))
          { b2 with orders := eraseAssoc b2.orders r }
    else b1
  (b2, o)

/-- One fill of `_match_orders`' loop body (source lines 197-294): record
history, settle, decrement quantities on both orders and the level; the
branch on `order.quantity <= head_order.quantity` follows the source. -/
def fillStep (b : LimitOrderBook) (o : Order) (lp : Int) (headId : Nat) (h : Order) :
    LimitOrderBook × Order :=
  let b0 :=
    if b.record_match_history then
      { b with match_history := b.match_history ++ [(o, h)] }
    else b
  if o.quantity ≤ h.quantity then
    let traded := o.quantity
    let b1 := { b0 with traders := settle b0.asset b0.traders o h traded }
    let b2 := { b1 with
      orders := modifyAssoc b1.orders headId (fun od => { od with quantity := od.quantity - traded }) }
    let b3 := setOppTree b2 o
      (treeModify (oppTree b2 o) lp (fun l => { l with quantity := l.quantity - traded }))
    let o' := { o with quantity := 0 }
    postFill b3 o' lp headId (h.quantity - traded)
  else
    let traded := h.quantity
    let b1 := { b0 with traders := settle b0.asset b0.traders o h traded }
    let b2 := setOppTree b1 o
      (treeModify (oppTree b1 o) lp (fun l => { l with quantity := l.quantity - traded }))
    let b3 := { b2 with
      orders := modifyAssoc b2.orders headId (fun od => { od with quantity := 0 }) }
    let o' := { o with quantity := o.quantity - traded }
    postFill b3 o' lp headId 0

/-- The residual deposit of `_add_order` (source lines 168-173): register
the order and append it to (or create) its own side's price level. -/
def restOrder (b : LimitOrderBook) (o : Order) : LimitOrderBook :=
  if o.quantity > 0 then
    let b1 := { b with orders := b.orders ++ [(o.id, o)] }
    let tree := if o.is_bid then b1.bids else b1.asks
    let tree' :=
      match treeLookup tree o.price with
      | none => treeInsert tree { price := o.price, orders := [o.id], quantity := o.quantity }
      | some _ => treeModify tree o.price
          (fun l => { l with orders := l.orders ++ [o.id], quantity := l.quantity + o.quantity })
    if o.is_bid then { b1 with bids := tree' } else { b1 with asks := tree' }
  else b

/-- While-loop guard and body of `_match_orders` (source lines 183-294),
with explicit fuel.  Each iteration re-reads the level from the opposing
tree (faithful to the Python object alias: the level object stays indexed
for the duration of the loop). -/
def matchLoop : Nat → LimitOrderBook → Order → Int → LimitOrderBook × Order
  | 0, b, o, _ => (b, o)
  | fuel + 1, b, o, lp =>
    match treeLookup (oppTree b o) lp with
    | none => (b, o)
    | some lv =>
      match lv.orders with
      | [] => (b, o)
      | headId :: _ =>
        if lv.quantity > 0 ∧ o.quantity > 0 then
          match lookupAssoc b.orders headId with
          | none =>
            -- tombstone: `best_value.pop_left()` alone (no quantity change)
            let b1 := setOppTree b o
              (treeModify (oppTree b o) lp (fun l => { l with orders := l.orders.tail }))
            matchLoop fuel b1 o lp
          | some h =>
            let r := fillStep b o lp headId h
            matchLoop fuel r.1 r.2 lp
        else (b, o)

mutual

/-- `LimitOrderBook._add_order` (source lines 139-173), fueled. -/
def add_order : Nat → LimitOrderBook → Order → LimitOrderBook × Option Err
  | 0, b, _ => (b, none)
  | fuel + 1, b, o =>
    if (lookupAssoc b.orders o.id).isSome then (b, some .duplicateId)
    else if o.is_bid then
      match best_ask b with
      | some ba => if ba.price ≤ o.price then match_orders fuel b o ba.price
                   else (restOrder b o, none)
      | none => (restOrder b o, none)
    else
      match best_bid b with
      | some bb => if o.price ≤ bb.price then match_orders fuel b o bb.price
                   else (restOrder b o, none)
      | none => (restOrder b o, none)

/-- `LimitOrderBook._match_orders` (source lines 175-306), fueled: the loop,
then the empty-level delete, then residual handling (`_update_order` with
its swapped `(price, quantity)` arguments when the id is registered, else
`_add_order`). -/
def match_orders : Nat → LimitOrderBook → Order → Int → LimitOrderBook × Option Err
  | 0, b, _, _ => (b, none)
  | fuel + 1, b, o, lp =>
    let r := matchLoop fuel b o lp
    let b1 := r.1
    let o1 := r.2
    let b2 :=
      match treeLookup (oppTree b1 o1) lp with
      | some lv => if lv.quantity ≤ 0 then setOppTree b1 o1 (treeDelete (oppTree b1 o1) lp) else b1
      | none => b1
    if o1.quantity > 0 then
      if (lookupAssoc b2.orders o1.id).isSome then
        let u := updateF fuel b2 o1.id o1.price o1.quantity none
        (u.1, match u.2 with | .ok _ => none | .error e => some e)
      else add_order fuel b2 o1
    else (b2, none)

/-- `LimitOrderBook.bid` (source lines 353-359), fueled: allocate the next
id (ghost-logging it) and delegate to `_add_order`. -/
def bidF : Nat → LimitOrderBook → Int → Int → Option Nat → LimitOrderBook × Nat × Option Err
  | 0, b, _, _, _ => (b, b.order_id, none)
  | fuel + 1, b, quantity, price, trader =>
    let o : Order := { is_bid := true, quantity := quantity, price := price,
                       id := b.order_id, trader := trader }
    let b1 := { b with order_id := b.order_id + 1, alloc_log := b.alloc_log ++ [b.order_id] }
    let r := add_order fuel b1 o
    (r.1, o.id, r.2)

/-- `LimitOrderBook.ask` (source lines 361-367), fueled. -/
def askF : Nat → LimitOrderBook → Int → Int → Option Nat → LimitOrderBook × Nat × Option Err
  | 0, b, _, _, _ => (b, b.order_id, none)
  | fuel + 1, b, quantity, price, trader =>
    let o : Order := { is_bid := false, quantity := quantity, price := price,
                       id := b.order_id, trader := trader }
    let b1 := { b with order_id := b.order_id + 1, alloc_log := b.alloc_log ++ [b.order_id] }
    let r := add_order fuel b1 o
    (r.1, o.id, r.2)

/-- `LimitOrderBook.update` (source lines 369-414), fueled.  Raises become
`Except.error` paired with the book state at the raise.  Note the source's
`quantity == 0` and price-change branches call `self.cancel(order_id)`
without forwarding `trader`. -/
def updateF : Nat → LimitOrderBook → Nat → Int → Int → Option Nat →
    LimitOrderBook × Except Err (Option Nat)
  | 0, b, _, _, _, _ => (b, .ok none)
  | fuel + 1, b, order_id, quantity, price, trader =>
    if quantity = 0 then (cancelB b order_id none, .ok none)
    else
      match lookupAssoc b.orders order_id with
      | some o =>
        if o.trader = trader then
          if o.price - price ≠ 0 then
            let b1 := cancelB b order_id none
            let r := if o.is_bid then bidF fuel b1 quantity price trader
                     else askF fuel b1 quantity price trader
            (r.1, match r.2.2 with | none => .ok (some r.2.1) | some e => .error e)
          else
            if o.quantity - quantity ≥ 0 then
              let b1 := { b with
                orders := modifyAssoc b.orders order_id (fun od => { od with quantity := quantity }) }
              let tree := if o.is_bid then b1.bids else b1.asks
              let tree' :=
                if (treeLookup tree price).isSome then
                  treeModify tree price
                    (fun l => { l with quantity := l.quantity - (o.quantity - quantity) })
                else tree
              let b2 := if o.is_bid then { b1 with bids := tree' } else { b1 with asks := tree' }
              (b2, .ok (some order_id))
            else
              let b1 := cancelB b order_id none
              let r := if o.is_bid then bidF fuel b1 quantity price trader
                       else askF fuel b1 quantity price trader
              (r.1, match r.2.2 with | none => .ok (some r.2.1) | some e => .error e)
        else (b, .error .notOwner)
      | none => (b, .error .unknownOrder)

end

/-- Fuel amply covering the recursion depth of one public operation: every
level transition costs at most two fuel and every loop iteration one. -/
def fuelFor (b : LimitOrderBook) : Nat :=
  (b.bids.map (fun l => l.orders.length)).sum + (b.asks.map (fun l => l.orders.length)).sum +
    2 * (b.bids.length + b.asks.length) + 8

/-- Public `bid`. -/
def LimitOrderBook.bid (b : LimitOrderBook) (quantity price : Int) (trader : Option Nat) :
    LimitOrderBook × Nat × Option Err :=
  bidF (fuelFor b) b quantity price trader

/-- Public `ask`. -/
def LimitOrderBook.ask (b : LimitOrderBook) (quantity price : Int) (trader : Option Nat) :
    LimitOrderBook × Nat × Option Err :=
  askF (fuelFor b) b quantity price trader

/-- Public `update`. -/
def LimitOrderBook.update (b : LimitOrderBook) (order_id : Nat) (quantity price : Int)
    (trader : Option Nat) : LimitOrderBook × Except Err (Option Nat) :=
  updateF (fuelFor b) b order_id quantity price trader

/-- Public `cancel`. -/
def LimitOrderBook.cancel (b : LimitOrderBook) (order_id : Nat) (trader : Option Nat) :
    LimitOrderBook :=
  cancelB b order_id trader

/-- `match_history_prices` (source lines 427-429): prices of the matched
(resting) orders. -/
def match_history_prices (b : LimitOrderBook) : List Int :=
  b.match_history.map (fun m => m.2.price)

/-- A freshly constructed book (`LimitOrderBook.__init__`). -/
def LimitOrderBook.init (record : Bool) : LimitOrderBook :=
  { bids := [], asks := [], orders := [], order_id := 0, asset := "",
    record_match_history := record, match_history := [],
    traders := fun _ => { balance := 0, owned := fun _ => none }, alloc_log := [] }

/-- One public operation, for reasoning about operation sequences. -/
inductive Op where
  | bid (quantity price : Int) (trader : Option Nat)
  | ask (quantity price : Int) (trader : Option Nat)
  | update (order_id : Nat) (quantity price : Int) (trader : Option Nat)
  | cancel (order_id : Nat) (trader : Option Nat)

/-- Apply one public operation (on a raise, the book is left in its state at
the raise, as in Python where the exception propagates to the caller). -/
def execOp (b : LimitOrderBook) : Op → LimitOrderBook
  | .bid q p t => (b.bid q p t).1
  | .ask q p t => (b.ask q p t).1
  | .update id q p t => (b.update id q p t).1
  | .cancel id t => b.cancel id t

/-- Run a sequence of public operations. -/
def execOps (b : LimitOrderBook) : List Op → LimitOrderBook
  | [] => b
  | op :: rest => execOps (execOp b op) rest

/-! ### Helper lemmas -/

theorem fuelFor_pos (b : LimitOrderBook) : 0 < fuelFor b := by
  unfold fuelFor; omega

theorem treeModify_map_orders (t : List LimitLevel) (p : Int) (f : LimitLevel → LimitLevel)
    (hf : ∀ l, (f l).orders = l.orders) :
    (treeModify t p f).map LimitLevel.orders = t.map LimitLevel.orders := by
  induction t with
  | nil => rfl
  | cons l rest ih =>
    by_cases h : l.price = p <;> simp [treeModify, h, hf, ih]

/-! ### Example books used by witnesses and counterexamples -/

/-- A book holding a single resting bid `(5, 50)` owned by trader 0 (id 0). -/
def exOwned : LimitOrderBook := ((LimitOrderBook.init false).bid 5 50 (some 0)).1

/-- A book holding a single resting bid `(5, 50)` with no participant. -/
def exAnon : LimitOrderBook := ((LimitOrderBook.init false).bid 5 50 none).1

/-! ### C1 -/

/-- C1 counterexample: for `update(id, 0, price, participant)` on an order
whose stored participant is `some 0` and matches, the claim says the order
is removed from the Registry; in fact the internal `self.cancel(order_id)`
drops the participant, the cancel is a no-op, and the order stays. -/
theorem update_zero_qty_cex :
    lookupAssoc ((exOwned.update 0 0 50 (some 0)).1).orders 0 ≠ none := by decide

/-- C1 (amended): `update(id, 0, price, participant)` behaves exactly as
`cancel(id, None)` — the participant argument is dropped, so the order is
removed only when its stored participant is null — and returns null. -/
theorem update_zero_qty (b : LimitOrderBook) (order_id : Nat) (price : Int)
    (trader : Option Nat) :
    b.update order_id 0 price trader = (b.cancel order_id none, Except.ok none) := by
  unfold LimitOrderBook.update LimitOrderBook.cancel
  rcases h : fuelFor b with _ | n
  · exact absurd h (by have := fuelFor_pos b; omega)
  · simp [updateF]

/-! ### C4 -/

/-- C4: `update` with nonzero quantity fails with `UnknownOrder` when the id
is not in the Registry, and with `NotOwner` when the id is present but the
referenced participant does not match; in both cases the book is returned
unchanged. -/
theorem update_error_cases (b : LimitOrderBook) (order_id : Nat) (quantity price : Int)
    (trader : Option Nat) (hq : 0 < quantity) :
    (lookupAssoc b.orders order_id = none →
      b.update order_id quantity price trader = (b, .error .unknownOrder)) ∧
    (∀ o, lookupAssoc b.orders order_id = some o → o.trader ≠ trader →
      b.update order_id quantity price trader = (b, .error .notOwner)) := by
  unfold LimitOrderBook.update
  rcases h : fuelFor b with _ | n
  · exact absurd h (by have := fuelFor_pos b; omega)
  · have hqz : ¬ quantity = 0 := by omega
    constructor
    · intro hnone
      simp [updateF, hnone, hqz]
    · intro o ho hne
      simp [updateF, ho, hqz, hne]

/-- C4 witness at concrete inputs: unknown id 5, and id 0 owned by trader 0
updated by trader 1. -/
theorem update_error_cases_witness :
    ((0:Int) < 3 ∧ lookupAssoc exOwned.orders 5 = none ∧
      exOwned.update 5 3 50 none = (exOwned, .error .unknownOrder)) ∧
    ((lookupAssoc exOwned.orders 0 =
        some { is_bid := true, quantity := 5, price := 50, id := 0, trader := some 0 }) ∧
      exOwned.update 0 3 50 (some 1) = (exOwned, .error .notOwner)) :=
  ⟨⟨by decide, by decide,
      (update_error_cases exOwned 5 3 50 none (by decide)).1 (by decide)⟩,
    ⟨by decide,
      (update_error_cases exOwned 0 3 50 (some 1) (by decide)).2
        { is_bid := true, quantity := 5, price := 50, id := 0, trader := some 0 }
        (by decide) (by decide)⟩⟩

/-! ### C5 -/

/-- C5: `cancel` on an unknown id, or with a participant that does not match
the stored one, raises nothing and leaves the whole book (both side
indices, the Registry, the id counter, the match history) unchanged. -/
theorem cancel_silent_noop (b : LimitOrderBook) (order_id : Nat) (trader : Option Nat) :
    (lookupAssoc b.orders order_id = none → b.cancel order_id trader = b) ∧
    (∀ o, lookupAssoc b.orders order_id = some o → o.trader ≠ trader →
      b.cancel order_id trader = b) := by
  unfold LimitOrderBook.cancel cancelB
  constructor
  · intro hnone; simp [hnone]
  · intro o ho hne; simp [ho, hne]

/-- C5 witness: cancelling unknown id 7, and cancelling id 0 (owned by
trader 0) as trader 1, both leave the book untouched. -/
theorem cancel_silent_noop_witness :
    (lookupAssoc exOwned.orders 7 = none ∧ exOwned.cancel 7 none = exOwned) ∧
    (exOwned.cancel 0 (some 1) = exOwned) :=
  ⟨⟨by decide, (cancel_silent_noop exOwned 7 none).1 (by decide)⟩,
    (cancel_silent_noop exOwned 0 (some 1)).2
      { is_bid := true, quantity := 5, price := 50, id := 0, trader := some 0 }
      (by decide) (by decide)⟩

/-! ### C8 -/

/-- C8: updating a resting order (matching participant) to the same price
with `0 < q' ≤ q` returns the original id, rewrites the order's quantity to
`q'` in the Registry, decrements its price level's aggregate quantity by
`q - q'`, and leaves every FIFO queue on both sides untouched. -/
theorem update_size_decrease (b : LimitOrderBook) (order_id : Nat) (q : Int) (o : Order)
    (t : Option Nat) (lv : LimitLevel)
    (ho : lookupAssoc b.orders order_id = some o) (ht : o.trader = t)
    (hq0 : 0 < q) (hqle : q ≤ o.quantity)
    (hlv : treeLookup (if o.is_bid then b.bids else b.asks) o.price = some lv) :
    b.update order_id q o.price t =
      (let b1 := { b with
         orders := modifyAssoc b.orders order_id (fun od => { od with quantity := q }) }
       let tree := if o.is_bid then b1.bids else b1.asks
       let tree' := treeModify tree o.price
         (fun l => { l with quantity := l.quantity - (o.quantity - q) })
       ((if o.is_bid then { b1 with bids := tree' } else { b1 with asks := tree' }),
         Except.ok (some order_id)))
    ∧ (b.update order_id q o.price t).1.bids.map LimitLevel.orders =
        b.bids.map LimitLevel.orders
    ∧ (b.update order_id q o.price t).1.asks.map LimitLevel.orders =
        b.asks.map LimitLevel.orders := by
  have hqz : ¬ q = 0 := by omega
  have hmain : b.update order_id q o.price t =
      (let b1 := { b with
         orders := modifyAssoc b.orders order_id (fun od => { od with quantity := q }) }
       let tree := if o.is_bid then b1.bids else b1.asks
       let tree' := treeModify tree o.price
         (fun l => { l with quantity := l.quantity - (o.quantity - q) })
       ((if o.is_bid then { b1 with bids := tree' } else { b1 with asks := tree' }),
         Except.ok (some order_id))) := by
    unfold LimitOrderBook.update
    rcases h : fuelFor b with _ | n
    · exact absurd h (by have := fuelFor_pos b; omega)
    · rcases hbid : o.is_bid with _ | _ <;> simp [hbid] at hlv <;>
        simp [updateF, hqz, ho, ht, (by omega : o.quantity - q ≥ 0), hbid, hlv]
  refine ⟨hmain, ?_, ?_⟩ <;> rw [hmain] <;>
    rcases hbid : o.is_bid with _ | _ <;> simp [hbid] <;>
      exact treeModify_map_orders _ _ _ (fun l => rfl)

/-- C8 witness: in a book with one resting bid `(5, 50)` at id 0, trader 0,
updating to quantity 3 at the same price. -/
theorem update_size_decrease_witness :
    (lookupAssoc exOwned.orders 0 =
        some { is_bid := true, quantity := 5, price := 50, id := 0, trader := some 0 }) ∧
    treeLookup exOwned.bids 50 = some { price := 50, orders := [0], quantity := 5 } ∧
    (exOwned.update 0 3 50 (some 0)).1.bids.map LimitLevel.orders =
      exOwned.bids.map LimitLevel.orders :=
  ⟨by decide, by decide,
    (update_size_decrease exOwned 0 3
      { is_bid := true, quantity := 5, price := 50, id := 0, trader := some 0 }
      (some 0) { price := 50, orders := [0], quantity := 5 }
      (by decide) (by decide) (by decide) (by decide) (by decide)).2.1⟩

/-! ### C10 -/

/-- C10: submitting a bid or ask with `quantity ≤ 0` whose price does not
cross the opposing best raises nothing, returns the freshly allocated id,
and the order never rests: only the id counter (and the ghost allocation
log) changes. -/
theorem nonpositive_qty_submit (b : LimitOrderBook) (q p : Int) (t : Option Nat)
    (hq : q ≤ 0) (hfresh : lookupAssoc b.orders b.order_id = none) :
    ((∀ ba, best_ask b = some ba → p < ba.price) →
      b.bid q p t = ({ b with order_id := b.order_id + 1,
                              alloc_log := b.alloc_log ++ [b.order_id] },
        b.order_id, none)) ∧
    ((∀ bb, best_bid b = some bb → bb.price < p) →
      b.ask q p t = ({ b with order_id := b.order_id + 1,
                              alloc_log := b.alloc_log ++ [b.order_id] },
        b.order_id, none)) := by
  have hfuel : fuelFor b = (fuelFor b - 2) + 2 := by have := fuelFor_pos b; unfold fuelFor; omega
  have hqng : ¬ q > 0 := by omega
  constructor
  · intro hnc
    unfold LimitOrderBook.bid
    rw [hfuel]
    show (bidF ((fuelFor b - 2) + 1 + 1) b q p t) = _
    rcases hba : best_ask b with _ | ba
    · simp [bidF, add_order, best_ask, hfresh, restOrder, hqng]
      simp [best_ask] at hba
      simp [hba]
    · have : ¬ ba.price ≤ p := by have := hnc ba hba; omega
      simp [bidF, add_order, best_ask, hfresh, restOrder, hqng]
      simp [best_ask] at hba
      simp [hba, this]
  · intro hnc
    unfold LimitOrderBook.ask
    rw [hfuel]
    show (askF ((fuelFor b - 2) + 1 + 1) b q p t) = _
    rcases hbb : best_bid b with _ | bb
    · simp [askF, add_order, best_bid, hfresh, restOrder, hqng]
      simp [best_bid] at hbb
      simp [hbb]
    · have : ¬ p ≤ bb.price := by have := hnc bb hbb; omega
      simp [askF, add_order, best_bid, hfresh, restOrder, hqng]
      simp [best_bid] at hbb
      simp [hbb, this]

/-- A book holding a single resting ask `(5, 100)` with no participant. -/
def exAsk100 : LimitOrderBook := ((LimitOrderBook.init false).ask 5 100 none).1

/-- C10 witness: on a book with one resting ask at 100, a zero-quantity bid
at 50 only advances the counter. -/
theorem nonpositive_qty_submit_witness :
    ((0:Int) ≤ 0 ∧
      lookupAssoc exAsk100.orders exAsk100.order_id = none) ∧
    exAsk100.bid 0 50 none =
      ({ exAsk100 with order_id := exAsk100.order_id + 1,
                       alloc_log := exAsk100.alloc_log ++ [exAsk100.order_id] },
        exAsk100.order_id, none) :=
  ⟨⟨by decide, by decide⟩,
    (nonpositive_qty_submit exAsk100 0 50 none (by decide) (by decide)).1
      (by
        intro ba hba
        have h2 : best_ask exAsk100 = some { price := 100, orders := [0], quantity := 5 } := by
          decide
        rw [h2] at hba
        injection hba with h
        rw [← h]
        decide)⟩

/-! ### C6 -/

/-- The S4 book: asks `(2,100)`, `(3,101)`, `(4,102)` then `bid(7,101)`,
with match history recording on. -/
def s4Book : LimitOrderBook :=
  (((((LimitOrderBook.init true).ask 2 100 none).1.ask 3 101 none).1.ask 4 102
      none).1.bid 7 101 none).1

/-- C6: after asks `(2,100),(3,101),(4,102)` and `submit_bid(7,101)`, the
bid consumed all 2 units at 100 and all 3 at 101 (two fills, trade prices
100 then 101, each at the resting order's price and pre-decrement
quantities 7/2 and 5/3), its residual 2 units rest as a bid level at 101,
and the ask side holds only the level `(4,102)`. -/
theorem multi_level_sweep :
    s4Book.asks = [{ price := 102, orders := [2], quantity := 4 }] ∧
    s4Book.bids = [{ price := 101, orders := [3], quantity := 2 }] ∧
    lookupAssoc s4Book.orders 3 =
      some { is_bid := true, quantity := 2, price := 101, id := 3, trader := none } ∧
    lookupAssoc s4Book.orders 0 = none ∧
    lookupAssoc s4Book.orders 1 = none ∧
    lookupAssoc s4Book.orders 2 =
      some { is_bid := false, quantity := 4, price := 102, id := 2, trader := none } ∧
    match_history_prices s4Book = [100, 101] ∧
    s4Book.match_history =
      [({ is_bid := true, quantity := 7, price := 101, id := 3, trader := none },
        { is_bid := false, quantity := 2, price := 100, id := 0, trader := none }),
       ({ is_bid := true, quantity := 5, price := 101, id := 3, trader := none },
        { is_bid := false, quantity := 3, price := 101, id := 1, trader := none })] := by
  decide

/-! ### C2 -/

/-- C2 counterexample: updating the participant-owned resting bid
`(5, 50, trader 0)` to price 60 does return a fresh id, but the claim's
"existing order is cancelled (removed from the Registry)" part fails: the
internal `self.cancel(order_id)` drops the participant, so order 0 is still
registered (and its level's aggregate quantity is undiminished) while the
fresh order 1 rests at 60. -/
theorem update_price_change_cex :
    lookupAssoc ((exOwned.update 0 5 60 (some 0)).1).orders 0 ≠ none ∧
    (exOwned.update 0 5 60 (some 0)).1.bids =
      [{ price := 50, orders := [0], quantity := 5 },
       { price := 60, orders := [1], quantity := 5 }] ∧
    (exOwned.update 0 5 60 (some 0)).2.toOption = some (some 1) := by
  decide

/-! ### Association list and tree lemmas -/

theorem lookupAssoc_modifyAssoc_self {α : Type} (l : List (Nat × α)) (id : Nat)
    (f : α → α) : lookupAssoc (modifyAssoc l id f) id = (lookupAssoc l id).map f := by
  induction l with
  | nil => rfl
  | cons kv rest ih =>
    obtain ⟨k, v⟩ := kv
    by_cases h : k = id <;> simp [modifyAssoc, lookupAssoc, h, ih]

theorem lookupAssoc_modifyAssoc_ne {α : Type} (l : List (Nat × α)) (id k : Nat)
    (f : α → α) (h : k ≠ id) :
    lookupAssoc (modifyAssoc l id f) k = lookupAssoc l k := by
  induction l with
  | nil => rfl
  | cons kv rest ih =>
    obtain ⟨k', v⟩ := kv
    by_cases h' : k' = id
    · subst h'
      simp [modifyAssoc, lookupAssoc, Ne.symm h]
    · simp [modifyAssoc, lookupAssoc, h', ih]

theorem map_fst_modifyAssoc {α : Type} (l : List (Nat × α)) (id : Nat) (f : α → α) :
    (modifyAssoc l id f).map Prod.fst = l.map Prod.fst := by
  induction l with
  | nil => rfl
  | cons kv rest ih =>
    obtain ⟨k, v⟩ := kv
    by_cases h : k = id <;> simp [modifyAssoc, h, ih]

theorem lookupAssoc_none_of_not_mem_keys {α : Type} (l : List (Nat × α)) (k : Nat)
    (h : k ∉ l.map Prod.fst) : lookupAssoc l k = none := by
  induction l with
  | nil => rfl
  | cons kv rest ih =>
    obtain ⟨k', v⟩ := kv
    rw [List.map_cons, List.mem_cons] at h
    push_neg at h
    simp [lookupAssoc, Ne.symm h.1, ih h.2]

theorem lookupAssoc_eraseAssoc_self {α : Type} (l : List (Nat × α)) (id : Nat)
    (hnd : (l.map Prod.fst).Nodup) : lookupAssoc (eraseAssoc l id) id = none := by
  induction l with
  | nil => rfl
  | cons kv rest ih =>
    obtain ⟨k, v⟩ := kv
    rw [List.map_cons, List.nodup_cons] at hnd
    by_cases h : k = id
    · subst h
      simpa [eraseAssoc] using lookupAssoc_none_of_not_mem_keys rest k hnd.1
    · simp [eraseAssoc, h, lookupAssoc, h, ih hnd.2]

theorem lookupAssoc_eraseAssoc_none {α : Type} (l : List (Nat × α)) (id k : Nat)
    (h : lookupAssoc l k = none) : lookupAssoc (eraseAssoc l id) k = none := by
  induction l with
  | nil => rfl
  | cons kv rest ih =>
    obtain ⟨k', v⟩ := kv
    by_cases hk : k' = k
    · simp [lookupAssoc, hk] at h
    · rw [lookupAssoc, if_neg hk] at h
      by_cases h' : k' = id <;> simp [eraseAssoc, h', lookupAssoc, hk, h, ih h]

theorem treeLookup_treeModify_self (t : List LimitLevel) (p : Int)
    (f : LimitLevel → LimitLevel) (hf : ∀ l, (f l).price = l.price) :
    treeLookup (treeModify t p f) p = (treeLookup t p).map f := by
  induction t with
  | nil => rfl
  | cons l rest ih =>
    by_cases h : l.price = p
    · simp [treeModify, treeLookup, h, hf l]
    · simp [treeModify, treeLookup, h, ih]

theorem setOppTree_orders (b : LimitOrderBook) (o : Order) (t : List LimitLevel) :
    (setOppTree b o t).orders = b.orders := by
  unfold setOppTree; split <;> rfl

theorem setOppTree_traders (b : LimitOrderBook) (o : Order) (t : List LimitLevel) :
    (setOppTree b o t).traders = b.traders := by
  unfold setOppTree; split <;> rfl

theorem oppTree_setOppTree (b : LimitOrderBook) (o o' : Order) (t : List LimitLevel)
    (hside : o'.is_bid = o.is_bid) : oppTree (setOppTree b o t) o' = t := by
  unfold setOppTree oppTree
  rcases h : o.is_bid <;> simp [h, hside]

theorem cancelB_traders (b : LimitOrderBook) (id : Nat) (t : Option Nat) :
    (cancelB b id t).traders = b.traders := by
  unfold cancelB
  rcases lookupAssoc b.orders id with _ | o
  · rfl
  · dsimp only
    split
    · rcases treeLookup (if o.is_bid then b.bids else b.asks) o.price with _ | lv
      · rfl
      · dsimp only; split <;> rfl
    · rfl

theorem adjustTrader_apply_ne (ts : Nat → Trader) (i : Nat) (db dq : Int) (a : String)
    (k : Nat) (hk : k ≠ i) : adjustTrader ts i db dq a k = ts k := by
  simp [adjustTrader, hk]

theorem adjustTrader_balance_self (ts : Nat → Trader) (i : Nat) (db dq : Int) (a : String) :
    (adjustTrader ts i db dq a i).balance = (ts i).balance + db := by
  simp [adjustTrader]

theorem adjustTrader_owned_self (ts : Nat → Trader) (i : Nat) (db dq : Int) (a : String) :
    ownedQty (adjustTrader ts i db dq a i) a = ownedQty (ts i) a + dq := by
  simp only [adjustTrader, ownedQty, if_pos rfl]
  rcases hw : (ts i).owned a with _ | v <;> simp [hw]

theorem fillStep_snd (b : LimitOrderBook) (o : Order) (lp : Int) (hid : Nat) (h : Order) :
    (fillStep b o lp hid h).2 =
      if o.quantity ≤ h.quantity then { o with quantity := 0 }
      else { o with quantity := o.quantity - h.quantity } := by
  unfold fillStep postFill
  by_cases hle : o.quantity ≤ h.quantity <;> simp [hle]

theorem postFill_traders (b : LimitOrderBook) (o : Order) (lp : Int) (hid : Nat) (hq : Int) :
    (postFill b o lp hid hq).1.traders = b.traders := by
  unfold postFill
  dsimp only
  split
  · split
    · rcases treeLookup (oppTree (cancelB b o.id none) o) lp with _ | lv
      · exact cancelB_traders ..
      · dsimp only
        rcases lv.orders with _ | ⟨r, rest⟩
        · exact cancelB_traders ..
        · dsimp only
          rw [setOppTree_traders, cancelB_traders]
    · exact cancelB_traders ..
  · split
    · rcases treeLookup (oppTree b o) lp with _ | lv
      · rfl
      · dsimp only
        rcases lv.orders with _ | ⟨r, rest⟩
        · rfl
        · dsimp only
          rw [setOppTree_traders]
    · rfl

theorem fillStep_traders (b : LimitOrderBook) (o : Order) (lp : Int) (hid : Nat) (h : Order) :
    (fillStep b o lp hid h).1.traders =
      settle b.asset b.traders o h
        (if o.quantity ≤ h.quantity then o.quantity else h.quantity) := by
  unfold fillStep
  by_cases hrec : b.record_match_history <;>
    by_cases hle : o.quantity ≤ h.quantity <;>
      simp [hrec, hle, postFill_traders, setOppTree_traders]

theorem settle_balance_incoming (a : String) (ts : Nat → Trader) (o h : Order)
    (traded : Int) (i j : Nat) (hoi : o.trader = some i) (hhj : h.trader = some j)
    (hij : i ≠ j) :
    (settle a ts o h traded i).balance =
      (ts i).balance - (if o.is_bid then (1:Int) else -1) * h.price * traded := by
  simp only [settle, hoi, hhj]
  rw [adjustTrader_apply_ne _ _ _ _ _ _ hij, adjustTrader_balance_self]
  rcases o.is_bid <;> simp <;> ring

theorem settle_owned_incoming (a : String) (ts : Nat → Trader) (o h : Order)
    (traded : Int) (i j : Nat) (hoi : o.trader = some i) (hhj : h.trader = some j)
    (hij : i ≠ j) :
    ownedQty (settle a ts o h traded i) a =
      ownedQty (ts i) a + (if o.is_bid then (1:Int) else -1) * traded := by
  simp only [settle, hoi, hhj]
  rw [adjustTrader_apply_ne _ _ _ _ _ _ hij, adjustTrader_owned_self]

theorem settle_balance_head (a : String) (ts : Nat → Trader) (o h : Order)
    (traded : Int) (i j : Nat) (hoi : o.trader = some i) (hhj : h.trader = some j)
    (hij : i ≠ j) :
    (settle a ts o h traded j).balance =
      (ts j).balance + (if o.is_bid then (1:Int) else -1) * h.price * traded := by
  simp only [settle, hoi, hhj]
  rw [adjustTrader_balance_self, adjustTrader_apply_ne _ _ _ _ _ _ (Ne.symm hij)]
  rcases o.is_bid <;> simp <;> ring

theorem settle_owned_head (a : String) (ts : Nat → Trader) (o h : Order)
    (traded : Int) (i j : Nat) (hoi : o.trader = some i) (hhj : h.trader = some j)
    (hij : i ≠ j) :
    ownedQty (settle a ts o h traded j) a =
      ownedQty (ts j) a - (if o.is_bid then (1:Int) else -1) * traded := by
  simp only [settle, hoi, hhj]
  rw [adjustTrader_owned_self, adjustTrader_apply_ne _ _ _ _ _ _ (Ne.symm hij)]
  rcases o.is_bid <;> simp <;> ring


theorem treeLookup_treeModify_qty (t : List LimitLevel) (p : Int) (q : Int) :
    treeLookup (treeModify t p (fun l => { l with quantity := l.quantity - q })) p =
      (treeLookup t p).map (fun l => { l with quantity := l.quantity - q }) :=
  treeLookup_treeModify_self _ _ _ (fun _ => rfl)

theorem fillStep_lookup_head (b : LimitOrderBook) (o : Order) (lp : Int) (lv : LimitLevel)
    (h : Order)
    (hhead : lookupAssoc b.orders h.id = some h)
    (hoid : lookupAssoc b.orders o.id = none)
    (hnodup : (b.orders.map Prod.fst).Nodup)
    (hlv : treeLookup (oppTree b o) lp = some lv)
    (hfront : lv.orders.head? = some h.id) :
    lookupAssoc (fillStep b o lp h.id h).1.orders h.id =
      (if h.quantity - (if o.quantity ≤ h.quantity then o.quantity else h.quantity) = 0
       then none
       else some { h with quantity := h.quantity - o.quantity }) := by
  have hne : h.id ≠ o.id := by
    intro he; rw [he, hoid] at hhead; exact Option.noConfusion hhead
  obtain ⟨tl, htl⟩ : ∃ tl, lv.orders = h.id :: tl := by
    rcases ho : lv.orders with _ | ⟨r, tl⟩
    · rw [ho] at hfront; exact Option.noConfusion hfront
    · rw [ho] at hfront
      simp at hfront
      exact ⟨tl, by rw [hfront]⟩
  by_cases hle : o.quantity ≤ h.quantity
  · have h1 : lookupAssoc (modifyAssoc b.orders h.id
        (fun od => { od with quantity := od.quantity - o.quantity })) o.id = none := by
      rw [lookupAssoc_modifyAssoc_ne _ _ _ _ (Ne.symm hne), hoid]
    have hlook : lookupAssoc (modifyAssoc b.orders h.id
        (fun od => { od with quantity := od.quantity - o.quantity })) h.id =
        some { h with quantity := h.quantity - o.quantity } := by
      rw [lookupAssoc_modifyAssoc_self, hhead]; rfl
    have herase : lookupAssoc (eraseAssoc (modifyAssoc b.orders h.id
        (fun od => { od with quantity := od.quantity - o.quantity })) h.id) h.id = none := by
      apply lookupAssoc_eraseAssoc_self
      rw [map_fst_modifyAssoc]; exact hnodup
    by_cases hq0 : h.quantity - o.quantity = 0
    · rcases hob : o.is_bid with _ | _ <;>
        by_cases hrec : b.record_match_history <;>
        simp only [oppTree, hob, if_true, if_false, ite_true, ite_false,
          Bool.false_eq_true] at hlv <;>
        simp only [fillStep, postFill, oppTree, setOppTree, hob, hrec, hle, hq0,
          if_true, if_false, ite_true, ite_false, Bool.false_eq_true, eq_self_iff_true,
          true_and, and_true, and_false, h1, hlook, Option.isSome_none, Option.isSome_some] <;>
        simp [treeLookup_treeModify_qty, hlv, htl, herase, hq0]
    · rcases hob : o.is_bid with _ | _ <;>
        by_cases hrec : b.record_match_history <;>
        simp only [fillStep, postFill, oppTree, setOppTree, hob, hrec, hle, hq0,
          if_true, if_false, ite_true, ite_false, Bool.false_eq_true, eq_self_iff_true,
          true_and, and_true, and_false, false_and, h1, hlook, Option.isSome_none,
          Option.isSome_some]
  · have hone : ¬ (o.quantity - h.quantity = 0) := by omega
    have hlook : lookupAssoc (modifyAssoc b.orders h.id
        (fun od => { od with quantity := (0:Int) })) h.id =
        some { h with quantity := (0:Int) } := by
      rw [lookupAssoc_modifyAssoc_self, hhead]; rfl
    have herase : lookupAssoc (eraseAssoc (modifyAssoc b.orders h.id
        (fun od => { od with quantity := (0:Int) })) h.id) h.id = none := by
      apply lookupAssoc_eraseAssoc_self
      rw [map_fst_modifyAssoc]; exact hnodup
    rcases hob : o.is_bid with _ | _ <;>
      by_cases hrec : b.record_match_history <;>
      simp only [oppTree, hob, if_true, if_false, ite_true, ite_false,
        Bool.false_eq_true] at hlv <;>
      simp only [fillStep, postFill, oppTree, setOppTree, hob, hrec, hle, hone,
        if_true, if_false, ite_true, ite_false, Bool.false_eq_true, eq_self_iff_true,
        true_and, and_true, and_false, false_and, hlook, Option.isSome_none,
        Option.isSome_some] <;>
      simp [treeLookup_treeModify_qty, hlv, htl, herase, sub_self]

/-! ### C7 -/

/-- C7: for one fill of `traded = min(O.quantity, H.quantity)` units against
resting head `H` at trade price `H.price` with both participants set and
distinct: the incoming participant's balance moves by `-sign*H.price*traded`
and its inventory of the asset by `+sign*traded` (`sign = +1` for a bid,
`-1` for an ask); the resting participant symmetrically gets the opposite;
the two balance deltas and the two inventory deltas each sum to zero; the
quantity decremented from the incoming order equals the quantity
decremented from the resting head (both `traded`, the head being deleted
from the Registry exactly when its quantity reaches zero); and the fill
applies exactly this settlement to the book's participants. -/
theorem fill_conservation (b : LimitOrderBook) (o h : Order) (lp : Int)
    (lv : LimitLevel) (i j : Nat) (traded : Int)
    (hoi : o.trader = some i) (hhj : h.trader = some j) (hij : i ≠ j)
    (hhead : lookupAssoc b.orders h.id = some h)
    (hoid : lookupAssoc b.orders o.id = none)
    (hnodup : (b.orders.map Prod.fst).Nodup)
    (hlv : treeLookup (oppTree b o) lp = some lv)
    (hfront : lv.orders.head? = some h.id)
    (htr : traded = min o.quantity h.quantity) :
    ((settle b.asset b.traders o h traded i).balance =
        (b.traders i).balance - (if o.is_bid then (1:Int) else -1) * h.price * traded) ∧
    (ownedQty (settle b.asset b.traders o h traded i) b.asset =
        ownedQty (b.traders i) b.asset + (if o.is_bid then (1:Int) else -1) * traded) ∧
    ((settle b.asset b.traders o h traded j).balance =
        (b.traders j).balance + (if o.is_bid then (1:Int) else -1) * h.price * traded) ∧
    (ownedQty (settle b.asset b.traders o h traded j) b.asset =
        ownedQty (b.traders j) b.asset - (if o.is_bid then (1:Int) else -1) * traded) ∧
    (((settle b.asset b.traders o h traded i).balance - (b.traders i).balance) +
       ((settle b.asset b.traders o h traded j).balance - (b.traders j).balance) = 0) ∧
    ((ownedQty (settle b.asset b.traders o h traded i) b.asset -
        ownedQty (b.traders i) b.asset) +
       (ownedQty (settle b.asset b.traders o h traded j) b.asset -
        ownedQty (b.traders j) b.asset) = 0) ∧
    (o.quantity - (fillStep b o lp h.id h).2.quantity = traded) ∧
    (lookupAssoc (fillStep b o lp h.id h).1.orders h.id =
      (if h.quantity - traded = 0 then none
       else some { h with quantity := h.quantity - traded })) ∧
    ((fillStep b o lp h.id h).1.traders = settle b.asset b.traders o h traded) := by
  have h1 := settle_balance_incoming b.asset b.traders o h traded i j hoi hhj hij
  have h2 := settle_owned_incoming b.asset b.traders o h traded i j hoi hhj hij
  have h3 := settle_balance_head b.asset b.traders o h traded i j hoi hhj hij
  have h4 := settle_owned_head b.asset b.traders o h traded i j hoi hhj hij
  have hminif : (if o.quantity ≤ h.quantity then o.quantity else h.quantity) = traded := by
    rw [htr, min_def]
  refine ⟨h1, h2, h3, h4, by rw [h1, h3]; ring, by rw [h2, h4]; ring, ?_, ?_, ?_⟩
  · rw [fillStep_snd]
    by_cases hle : o.quantity ≤ h.quantity <;> simp [hle] <;> omega
  · rw [fillStep_lookup_head b o lp lv h hhead hoid hnodup hlv hfront, hminif]
    by_cases hz : h.quantity - traded = 0 <;> simp [hz]
    rw [htr, min_def]
    by_cases hle : o.quantity ≤ h.quantity <;> simp [hle]
    omega
  · rw [fillStep_traders, hminif]

/-- Book for the C7 witness: one resting ask `(2, 100)` owned by trader 1. -/
def exB7 : LimitOrderBook := ((LimitOrderBook.init false).ask 2 100 (some 1)).1

/-- Incoming bid for the C7 witness (id 1, trader 2). -/
def exO7 : Order := { is_bid := true, quantity := 2, price := 100, id := 1, trader := some 2 }

/-- Resting head order for the C7 witness (id 0, trader 1). -/
def exH7 : Order := { is_bid := false, quantity := 2, price := 100, id := 0, trader := some 1 }

/-- C7 witness: a concrete crossing fill of 2 units at price 100 between
trader 2 (incoming bid) and trader 1 (resting ask); the two balance deltas
cancel. -/
theorem fill_conservation_witness :
    (exO7.trader = some 2 ∧ exH7.trader = some 1 ∧ (2:Nat) ≠ 1 ∧
      lookupAssoc exB7.orders exH7.id = some exH7 ∧
      lookupAssoc exB7.orders exO7.id = none ∧
      (exB7.orders.map Prod.fst).Nodup ∧
      treeLookup (oppTree exB7 exO7) 100 = some { price := 100, orders := [0], quantity := 2 } ∧
      ({ price := 100, orders := [0], quantity := 2 } : LimitLevel).orders.head? = some exH7.id ∧
      (2:Int) = min exO7.quantity exH7.quantity) ∧
    (((settle exB7.asset exB7.traders exO7 exH7 2 2).balance -
        (exB7.traders 2).balance) +
       ((settle exB7.asset exB7.traders exO7 exH7 2 1).balance -
        (exB7.traders 1).balance) = 0) :=
  ⟨⟨by decide, by decide, by decide, by decide, by decide, by decide, by decide, by decide,
     by decide⟩,
    (fill_conservation exB7 exO7 exH7 100 { price := 100, orders := [0], quantity := 2 }
      2 1 2 (by decide) (by decide) (by decide) (by decide) (by decide) (by decide)
      (by decide) (by decide) (by decide)).2.2.2.2.1⟩

theorem lookupAssoc_modifyAssoc_none {α : Type} (l : List (Nat × α)) (id k : Nat)
    (f : α → α) (h : lookupAssoc l k = none) :
    lookupAssoc (modifyAssoc l id f) k = none := by
  by_cases hk : k = id
  · subst hk; rw [lookupAssoc_modifyAssoc_self, h]; rfl
  · rw [lookupAssoc_modifyAssoc_ne _ _ _ _ hk, h]

theorem cancelB_lookup_none (b : LimitOrderBook) (id : Nat) (t : Option Nat) (k : Nat)
    (hk : lookupAssoc b.orders k = none) :
    lookupAssoc (cancelB b id t).orders k = none := by
  unfold cancelB
  rcases lookupAssoc b.orders id with _ | o
  · exact hk
  · dsimp only
    split
    · rcases treeLookup (if o.is_bid then b.bids else b.asks) o.price with _ | lv
      · exact hk
      · dsimp only
        split <;> split <;> exact lookupAssoc_eraseAssoc_none _ _ _ hk
    · exact hk

theorem cancelB_order_id (b : LimitOrderBook) (id : Nat) (t : Option Nat) :
    (cancelB b id t).order_id = b.order_id := by
  unfold cancelB
  rcases lookupAssoc b.orders id with _ | o
  · rfl
  · dsimp only
    split
    · rcases treeLookup (if o.is_bid then b.bids else b.asks) o.price with _ | lv
      · rfl
      · dsimp only; split <;> split <;> rfl
    · rfl

theorem postFill_lookup_none (b : LimitOrderBook) (o : Order) (lp : Int) (hid : Nat)
    (hq : Int) (k : Nat) (hk : lookupAssoc b.orders k = none) :
    lookupAssoc (postFill b o lp hid hq).1.orders k = none := by
  unfold postFill
  dsimp only
  split
  · have hc := cancelB_lookup_none b o.id none k hk
    split
    · rcases treeLookup (oppTree (cancelB b o.id none) o) lp with _ | lv
      · exact hc
      · dsimp only
        rcases lv.orders with _ | ⟨r, rest⟩
        · exact hc
        · dsimp only
          rw [setOppTree_orders]
          exact lookupAssoc_eraseAssoc_none _ _ _ hc
    · exact hc
  · split
    · rcases treeLookup (oppTree b o) lp with _ | lv
      · exact hk
      · dsimp only
        rcases lv.orders with _ | ⟨r, rest⟩
        · exact hk
        · dsimp only
          rw [setOppTree_orders]
          exact lookupAssoc_eraseAssoc_none _ _ _ hk
    · exact hk

theorem fillStep_lookup_none (b : LimitOrderBook) (o : Order) (lp : Int) (hid : Nat)
    (h : Order) (k : Nat) (hk : lookupAssoc b.orders k = none) :
    lookupAssoc (fillStep b o lp hid h).1.orders k = none := by
  unfold fillStep
  by_cases hrec : b.record_match_history <;>
    by_cases hle : o.quantity ≤ h.quantity <;>
      simp only [hrec, hle, if_true, if_false, ite_true, ite_false, Bool.false_eq_true] <;>
      apply postFill_lookup_none <;>
      simp only [setOppTree_orders] <;>
      exact lookupAssoc_modifyAssoc_none _ _ _ _ hk

theorem fillStep_snd_id (b : LimitOrderBook) (o : Order) (lp : Int) (hid : Nat)
    (h : Order) : (fillStep b o lp hid h).2.id = o.id := by
  rw [fillStep_snd]; split <;> rfl

theorem matchLoop_fresh (fuel : Nat) (b : LimitOrderBook) (o : Order) (lp : Int)
    (hoid : lookupAssoc b.orders o.id = none) :
    lookupAssoc (matchLoop fuel b o lp).1.orders (matchLoop fuel b o lp).2.id = none ∧
    (matchLoop fuel b o lp).2.id = o.id := by
  induction fuel generalizing b o with
  | zero => exact ⟨hoid, rfl⟩
  | succ n ih =>
    unfold matchLoop
    rcases treeLookup (oppTree b o) lp with _ | lv
    · exact ⟨hoid, rfl⟩
    · dsimp only
      rcases lv.orders with _ | ⟨headId, rest⟩
      · exact ⟨hoid, rfl⟩
      · dsimp only
        split
        · rcases hha : lookupAssoc b.orders headId with _ | h
          · dsimp only
            exact ih _ _ (by rw [setOppTree_orders]; exact hoid)
          · dsimp only
            have h1 : lookupAssoc (fillStep b o lp headId h).1.orders
                (fillStep b o lp headId h).2.id = none := by
              rw [fillStep_snd_id]
              exact fillStep_lookup_none _ _ _ _ _ _ hoid
            have := ih (fillStep b o lp headId h).1 (fillStep b o lp headId h).2 h1
            exact ⟨this.1, by rw [this.2]; exact fillStep_snd_id _ _ _ _ _⟩
        · exact ⟨hoid, rfl⟩

/-- Submitting an order whose id is not yet registered never raises: the
duplicate-id check passes and the matching path never reaches the
registered-residual (`_update_order`) branch. -/
theorem noerr_all (fuel : Nat) :
    (∀ b (o : Order), lookupAssoc b.orders o.id = none →
      (add_order fuel b o).2 = none) ∧
    (∀ b (o : Order) (lp : Int), lookupAssoc b.orders o.id = none →
      (match_orders fuel b o lp).2 = none) ∧
    (∀ b (q p : Int) (t : Option Nat), lookupAssoc b.orders b.order_id = none →
      (bidF fuel b q p t).2.2 = none ∧ (bidF fuel b q p t).2.1 = b.order_id) ∧
    (∀ b (q p : Int) (t : Option Nat), lookupAssoc b.orders b.order_id = none →
      (askF fuel b q p t).2.2 = none ∧ (askF fuel b q p t).2.1 = b.order_id) := by
  induction fuel with
  | zero =>
    exact ⟨fun b o _ => rfl, fun b o lp _ => rfl,
      fun b q p t _ => ⟨rfl, rfl⟩, fun b q p t _ => ⟨rfl, rfl⟩⟩
  | succ n ih =>
    obtain ⟨ihA, ihM, ihB, ihK⟩ := ih
    have hA : ∀ b (o : Order), lookupAssoc b.orders o.id = none →
        (add_order (n + 1) b o).2 = none := by
      intro b o hoid
      unfold add_order
      rw [hoid]
      simp only [Option.isSome_none, Bool.false_eq_true, if_false, ite_false]
      by_cases hob : o.is_bid <;>
        simp only [hob, Bool.false_eq_true, if_true, if_false, ite_true, ite_false]
      · rcases hba : best_ask b with _ | ba
        · simp [hba]
        · simp only [hba]
          split
          · exact ihM _ _ _ hoid
          · rfl
      · rcases hbb : best_bid b with _ | bb
        · simp [hbb]
        · simp only [hbb]
          split
          · exact ihM _ _ _ hoid
          · rfl
    have hM : ∀ b (o : Order) (lp : Int), lookupAssoc b.orders o.id = none →
        (match_orders (n + 1) b o lp).2 = none := by
      intro b o lp hoid
      unfold match_orders
      obtain ⟨h1, h2⟩ := matchLoop_fresh n b o lp hoid
      dsimp only
      by_cases hq : (matchLoop n b o lp).2.quantity > 0 <;>
        rcases htL : treeLookup (oppTree (matchLoop n b o lp).1 (matchLoop n b o lp).2) lp
          with _ | lv <;>
        simp only [htL, hq, if_true, if_false, ite_true, ite_false]
      · rw [h1]
        simp only [Option.isSome_none, Bool.false_eq_true, if_false, ite_false]
        exact ihA _ _ h1
      · have h1' : lookupAssoc (setOppTree (matchLoop n b o lp).1 (matchLoop n b o lp).2
            (treeDelete (oppTree (matchLoop n b o lp).1 (matchLoop n b o lp).2) lp)).orders
            (matchLoop n b o lp).2.id = none := by
          rw [setOppTree_orders]; exact h1
        by_cases hlz : lv.quantity ≤ 0 <;>
          simp only [hlz, if_true, if_false, ite_true, ite_false]
        · rw [h1']
          simp only [Option.isSome_none, Bool.false_eq_true, if_false, ite_false]
          exact ihA _ _ h1'
        · rw [h1]
          simp only [Option.isSome_none, Bool.false_eq_true, if_false, ite_false]
          exact ihA _ _ h1
    refine ⟨hA, hM, ?_, ?_⟩
    · intro b q p t hfresh
      unfold bidF
      dsimp only
      exact ⟨ihA _ _ hfresh, rfl⟩
    · intro b q p t hfresh
      unfold askF
      dsimp only
      exact ⟨ihA _ _ hfresh, rfl⟩

/-- C2 (amended): updating a registered order (matching participant) with
`quantity > 0` to a different price runs the internal cancel with the
participant argument dropped — so the existing order is removed from the
Registry only when its stored participant is null — then submits a fresh
order `(quantity, price, participant)` on the same side through the public
submit path; the call returns the freshly allocated id, which is the
pre-call value of the id counter and differs from the original id. -/
theorem update_price_change (b : LimitOrderBook) (order_id : Nat) (q p : Int)
    (t : Option Nat) (o : Order)
    (ho : lookupAssoc b.orders order_id = some o) (ht : o.trader = t)
    (hq : 0 < q) (hp : o.price ≠ p)
    (hid : order_id < b.order_id)
    (hfresh : lookupAssoc b.orders b.order_id = none) :
    (b.update order_id q p t).1 =
      (if o.is_bid then bidF (fuelFor b - 1) (cancelB b order_id none) q p t
       else askF (fuelFor b - 1) (cancelB b order_id none) q p t).1 ∧
    (b.update order_id q p t).2 = .ok (some b.order_id) ∧
    b.order_id ≠ order_id := by
  have hqz : ¬ q = 0 := by omega
  have hpd : o.price - p ≠ 0 := sub_ne_zero.mpr hp
  have hfr1 : lookupAssoc (cancelB b order_id none).orders
      (cancelB b order_id none).order_id = none := by
    rw [cancelB_order_id]
    exact cancelB_lookup_none _ _ _ _ hfresh
  unfold LimitOrderBook.update
  rcases hfe : fuelFor b with _ | n
  · exact absurd hfe (by have := fuelFor_pos b; omega)
  · have hn : n = fuelFor b - 1 := by omega
    subst hn
    have hB := ((noerr_all (fuelFor b - 1)).2.2.1 (cancelB b order_id none) q p t hfr1)
    have hK := ((noerr_all (fuelFor b - 1)).2.2.2 (cancelB b order_id none) q p t hfr1)
    rcases hob : o.is_bid with _ | _ <;>
      simp only [updateF, hqz, ho, ht, hob, if_true, if_false, ite_true, ite_false,
        Bool.false_eq_true, eq_self_iff_true, not_false_eq_true, not_true] <;>
      rw [if_pos hpd] <;>
      refine ⟨rfl, ?_, by omega⟩
    · rw [hK.1]
      rw [hK.2, cancelB_order_id]
    · rw [hB.1]
      rw [hB.2, cancelB_order_id]

/-- C2 witness: the anonymous resting bid `(5, 50)` updated to `(7, 60)`
returns the fresh id 1 (≠ 0) and equals cancel-then-resubmit. -/
theorem update_price_change_witness :
    (lookupAssoc exAnon.orders 0 =
        some { is_bid := true, quantity := 5, price := 50, id := 0, trader := none } ∧
      (0:Int) < 7 ∧ ((50:Int) ≠ 60) ∧ 0 < exAnon.order_id ∧
      lookupAssoc exAnon.orders exAnon.order_id = none) ∧
    ((exAnon.update 0 7 60 none).2 = .ok (some exAnon.order_id) ∧
      exAnon.order_id ≠ 0) :=
  ⟨⟨by decide, by decide, by decide, by decide, by decide⟩,
    (update_price_change exAnon 0 7 60 none
      { is_bid := true, quantity := 5, price := 50, id := 0, trader := none }
      (by decide) (by decide) (by decide) (by decide) (by decide) (by decide)).2⟩

/-! ### Invariants: sorted sides, uncrossed book, monotone allocation log -/

/-- The price keys of one side, in index order (ascending for a faithful
`SortedDict` state). -/
def sidePrices (t : List LimitLevel) : List Int := t.map (fun l => l.price)

/-- Both side indices hold strictly ascending price keys (the `SortedDict`
representation invariant). -/
def PricesSorted (b : LimitOrderBook) : Prop :=
  (sidePrices b.bids).Pairwise (· < ·) ∧ (sidePrices b.asks).Pairwise (· < ·)

/-- Every resting bid price is strictly below every resting ask price. -/
def NoCross (b : LimitOrderBook) : Prop :=
  ∀ pb ∈ sidePrices b.bids, ∀ pa ∈ sidePrices b.asks, pb < pa

/-- The ghost allocation log is strictly increasing and bounded by the
id counter. -/
def LogOk (b : LimitOrderBook) : Prop :=
  b.alloc_log.Pairwise (· < ·) ∧ ∀ i ∈ b.alloc_log, i < b.order_id

/-- The inductive invariant carried across all public operations. -/
def BookInv (b : LimitOrderBook) : Prop := PricesSorted b ∧ NoCross b ∧ LogOk b

theorem treeModify_sidePrices (t : List LimitLevel) (p : Int) (f : LimitLevel → LimitLevel)
    (hf : ∀ l, (f l).price = l.price) :
    sidePrices (treeModify t p f) = sidePrices t := by
  induction t with
  | nil => rfl
  | cons l rest ih =>
    by_cases h : l.price = p <;> simp [treeModify, sidePrices, h, hf, ih] <;>
      simpa [sidePrices] using ih

theorem treeDelete_sublist (t : List LimitLevel) (p : Int) :
    (treeDelete t p).Sublist t := by
  induction t with
  | nil => simp [treeDelete]
  | cons l rest ih =>
    by_cases h : l.price = p
    · rw [treeDelete, if_pos h]
      exact List.sublist_cons_self l rest
    · rw [treeDelete, if_neg h]
      exact ih.cons₂ l

theorem treeDelete_sidePrices_sublist (t : List LimitLevel) (p : Int) :
    (sidePrices (treeDelete t p)).Sublist (sidePrices t) :=
  (treeDelete_sublist t p).map _

theorem mem_treeInsert (t : List LimitLevel) (lv x : LimitLevel)
    (hx : x ∈ treeInsert t lv) : x = lv ∨ x ∈ t := by
  induction t with
  | nil => simp [treeInsert] at hx; exact Or.inl hx
  | cons l rest ih =>
    unfold treeInsert at hx
    by_cases h1 : lv.price < l.price
    · simp [h1] at hx
      rcases hx with hx | hx | hx
      · exact Or.inl hx
      · exact Or.inr (by simp [hx])
      · exact Or.inr (by simp [hx])
    · by_cases h2 : lv.price = l.price
      · simp [h1, h2] at hx
        rcases hx with hx | hx
        · exact Or.inl hx
        · exact Or.inr (by simp [hx])
      · simp [h1, h2] at hx
        rcases hx with hx | hx
        · exact Or.inr (by simp [hx])
        · rcases ih hx with hx | hx
          · exact Or.inl hx
          · exact Or.inr (by simp [hx])

theorem mem_sidePrices_treeInsert (t : List LimitLevel) (lv : LimitLevel) (x : Int)
    (hx : x ∈ sidePrices (treeInsert t lv)) : x = lv.price ∨ x ∈ sidePrices t := by
  unfold sidePrices at hx
  rcases List.mem_map.mp hx with ⟨y, hy, rfl⟩
  rcases mem_treeInsert t lv y hy with h | h
  · exact Or.inl (by rw [h])
  · exact Or.inr (List.mem_map.mpr ⟨y, h, rfl⟩)

theorem treeInsert_sorted (t : List LimitLevel) (lv : LimitLevel)
    (h : (sidePrices t).Pairwise (· < ·)) :
    (sidePrices (treeInsert t lv)).Pairwise (· < ·) := by
  induction t with
  | nil => simp [treeInsert, sidePrices]
  | cons l rest ih =>
    rw [sidePrices, List.map_cons, List.pairwise_cons] at h
    obtain ⟨hl, hrest⟩ := h
    rw [treeInsert]
    by_cases h1 : lv.price < l.price
    · rw [if_pos h1, sidePrices, List.map_cons, List.map_cons, List.pairwise_cons]
      refine ⟨?_, ?_⟩
      · intro x hx
        rcases List.mem_cons.mp hx with rfl | hx
        · exact h1
        · exact lt_trans h1 (hl x hx)
      · rw [List.pairwise_cons]
        exact ⟨hl, hrest⟩
    · by_cases h2 : lv.price = l.price
      · rw [if_neg h1, if_pos h2, sidePrices, List.map_cons, List.pairwise_cons]
        exact ⟨fun x hx => h2 ▸ hl x hx, hrest⟩
      · rw [if_neg h1, if_neg h2, sidePrices, List.map_cons, List.pairwise_cons]
        refine ⟨?_, ih hrest⟩
        intro x hx
        rcases mem_sidePrices_treeInsert rest lv x hx with rfl | hx
        · omega
        · exact hl x hx

theorem getLast?_mem {α : Type} (l : List α) (x : α) (h : l.getLast? = some x) : x ∈ l := by
  induction l with
  | nil => exact Option.noConfusion h
  | cons a rest ih =>
    rcases rest with _ | ⟨b, rest'⟩
    · simp [List.getLast?] at h
      simp [h]
    · rw [List.getLast?_cons_cons] at h
      exact List.mem_cons_of_mem a (ih h)

theorem sorted_head_min (t : List LimitLevel) (l0 : LimitLevel)
    (hs : (sidePrices t).Pairwise (· < ·)) (hh : t.head? = some l0) :
    ∀ x ∈ sidePrices t, l0.price ≤ x := by
  rcases t with _ | ⟨a, rest⟩
  · exact Option.noConfusion hh
  · simp only [List.head?] at hh
    injection hh with hh
    subst hh
    rw [sidePrices, List.map_cons, List.pairwise_cons] at hs
    intro x hx
    rw [sidePrices, List.map_cons, List.mem_cons] at hx
    rcases hx with rfl | hx
    · exact le_refl _
    · exact le_of_lt (hs.1 x hx)

theorem sorted_last_max (t : List LimitLevel) (ln : LimitLevel)
    (hs : (sidePrices t).Pairwise (· < ·)) (hl : t.getLast? = some ln) :
    ∀ x ∈ sidePrices t, x ≤ ln.price := by
  induction t with
  | nil => exact Option.noConfusion hl
  | cons a rest ih =>
    rcases rest with _ | ⟨b, rest'⟩
    · simp [List.getLast?] at hl
      intro x hx
      simp [sidePrices, hl] at hx
      simp [hx, hl]
    · rw [List.getLast?_cons_cons] at hl
      rw [sidePrices, List.map_cons, List.pairwise_cons] at hs
      intro x hx
      rw [sidePrices, List.map_cons, List.mem_cons] at hx
      have hmem : ln ∈ b :: rest' := getLast?_mem _ _ hl
      rcases hx with rfl | hx
      · exact le_of_lt (hs.1 ln.price
          (by rw [sidePrices] at *; exact List.mem_map.mpr ⟨ln, hmem, rfl⟩))
      · exact ih hs.2 hl x hx

theorem sublist_of_price_eq {l l' : List Int} (h : l = l') : l.Sublist l' := by
  rw [h]

/-- The invariant transfers along any book change that only shrinks (or
keeps) each side's price list and keeps the counter and log. -/
theorem bookInv_mono (b b' : LimitOrderBook)
    (hb : (sidePrices b'.bids).Sublist (sidePrices b.bids))
    (ha : (sidePrices b'.asks).Sublist (sidePrices b.asks))
    (hl : b'.alloc_log = b.alloc_log) (hi : b'.order_id = b.order_id)
    (h : BookInv b) : BookInv b' := by
  obtain ⟨⟨s1, s2⟩, nc, l1, l2⟩ := h
  refine ⟨⟨?_, ?_⟩, ?_, ?_, ?_⟩
  · exact s1.sublist hb
  · exact s2.sublist ha
  · intro pb hpb pa hpa
    exact nc pb (hb.subset hpb) pa (ha.subset hpa)
  · rw [hl]; exact l1
  · intro i hi'
    rw [hl] at hi'
    rw [hi]
    exact l2 i hi'

theorem setOppTree_modify_inv (b : LimitOrderBook) (o : Order) (lp : Int)
    (f : LimitLevel → LimitLevel) (hf : ∀ l, (f l).price = l.price)
    (h : BookInv b) : BookInv (setOppTree b o (treeModify (oppTree b o) lp f)) := by
  rcases hob : o.is_bid with _ | _ <;>
    simp only [setOppTree, oppTree, hob, if_true, if_false, ite_true, ite_false,
      Bool.false_eq_true] <;>
    exact bookInv_mono b _
      (sublist_of_price_eq (by first
        | rfl
        | exact treeModify_sidePrices _ _ _ hf))
      (sublist_of_price_eq (by first
        | rfl
        | exact treeModify_sidePrices _ _ _ hf))
      rfl rfl h

theorem setOppTree_delete_inv (b : LimitOrderBook) (o : Order) (lp : Int)
    (h : BookInv b) : BookInv (setOppTree b o (treeDelete (oppTree b o) lp)) := by
  rcases hob : o.is_bid with _ | _ <;>
    simp only [setOppTree, oppTree, hob, if_true, if_false, ite_true, ite_false,
      Bool.false_eq_true] <;>
    exact bookInv_mono b _
      (by first
        | exact List.Sublist.refl _
        | exact treeDelete_sidePrices_sublist _ _)
      (by first
        | exact List.Sublist.refl _
        | exact treeDelete_sidePrices_sublist _ _)
      rfl rfl h

theorem bookInv_orders (b : LimitOrderBook) (l : List (Nat × Order)) (h : BookInv b) :
    BookInv { b with orders := l } :=
  bookInv_mono b _ (List.Sublist.refl _) (List.Sublist.refl _) rfl rfl h

theorem cancelB_inv (b : LimitOrderBook) (id : Nat) (t : Option Nat) (h : BookInv b) :
    BookInv (cancelB b id t) := by
  unfold cancelB
  rcases lookupAssoc b.orders id with _ | o
  · exact h
  · dsimp only
    split
    · rcases treeLookup (if o.is_bid then b.bids else b.asks) o.price with _ | lv
      · exact h
      · dsimp only
        by_cases hq2 : lv.quantity - o.quantity ≤ 0 <;>
          simp only [hq2, if_true, if_false, ite_true, ite_false] <;>
          rcases hob : o.is_bid with _ | _ <;>
          simp only [hob, if_true, if_false, ite_true, ite_false, Bool.false_eq_true] <;>
          refine bookInv_mono b _ ?_ ?_ rfl rfl h <;>
          first
            | exact List.Sublist.refl _
            | exact treeDelete_sidePrices_sublist _ _
            | exact sublist_of_price_eq (treeModify_sidePrices _ _ _ (fun _ => rfl))
    · exact h

theorem postFill_inv (b : LimitOrderBook) (o : Order) (lp : Int) (hid : Nat) (hq : Int)
    (h : BookInv b) : BookInv (postFill b o lp hid hq).1 := by
  unfold postFill
  dsimp only
  split
  · have h1 := cancelB_inv b o.id none h
    split
    · rcases treeLookup (oppTree (cancelB b o.id none) o) lp with _ | lv
      · exact h1
      · dsimp only
        rcases lv.orders with _ | ⟨r, rest⟩
        · exact h1
        · dsimp only
          exact bookInv_orders _ _ (setOppTree_modify_inv _ _ _ _ (fun _ => rfl) h1)
    · exact h1
  · split
    · rcases treeLookup (oppTree b o) lp with _ | lv
      · exact h
      · dsimp only
        rcases lv.orders with _ | ⟨r, rest⟩
        · exact h
        · dsimp only
          exact bookInv_orders _ _ (setOppTree_modify_inv _ _ _ _ (fun _ => rfl) h)
    · exact h

theorem fillStep_inv (b : LimitOrderBook) (o : Order) (lp : Int) (hid : Nat) (hh : Order)
    (h : BookInv b) : BookInv (fillStep b o lp hid hh).1 := by
  unfold fillStep
  by_cases hrec : b.record_match_history <;>
    by_cases hle : o.quantity ≤ hh.quantity <;>
    simp only [hrec, hle, if_true, if_false, ite_true, ite_false, Bool.false_eq_true] <;>
    apply postFill_inv <;>
    first
      | exact setOppTree_modify_inv _ _ _ _ (fun _ => rfl)
          (bookInv_mono b _ (List.Sublist.refl _) (List.Sublist.refl _) rfl rfl h)
      | exact bookInv_orders _ _ (setOppTree_modify_inv _ _ _ _ (fun _ => rfl)
          (bookInv_mono b _ (List.Sublist.refl _) (List.Sublist.refl _) rfl rfl h))

theorem matchLoop_inv (fuel : Nat) (b : LimitOrderBook) (o : Order) (lp : Int)
    (h : BookInv b) : BookInv (matchLoop fuel b o lp).1 := by
  induction fuel generalizing b o with
  | zero => exact h
  | succ n ih =>
    unfold matchLoop
    rcases treeLookup (oppTree b o) lp with _ | lv
    · exact h
    · dsimp only
      rcases lv.orders with _ | ⟨headId, rest⟩
      · exact h
      · dsimp only
        split
        · rcases lookupAssoc b.orders headId with _ | hd
          · exact ih _ _ (setOppTree_modify_inv _ _ _ _ (fun _ => rfl) h)
          · exact ih _ _ (fillStep_inv _ _ _ _ _ h)
        · exact h

theorem restOrder_inv (b : LimitOrderBook) (o : Order) (h : BookInv b)
    (hbid : o.is_bid = true → ∀ pa ∈ sidePrices b.asks, o.price < pa)
    (hask : o.is_bid = false → ∀ pb ∈ sidePrices b.bids, pb < o.price) :
    BookInv (restOrder b o) := by
  unfold restOrder
  split
  · rcases hob : o.is_bid with _ | _ <;>
      simp only [hob, if_true, if_false, ite_true, ite_false, Bool.false_eq_true]
    · rcases htL : treeLookup b.asks o.price with _ | lv <;> simp only [htL]
      · obtain ⟨⟨s1, s2⟩, nc, l1, l2⟩ := h
        refine ⟨⟨s1, treeInsert_sorted _ _ s2⟩, ?_, l1, l2⟩
        intro pb hpb pa hpa
        rcases mem_sidePrices_treeInsert _ _ _ hpa with rfl | hpa
        · exact hask hob pb hpb
        · exact nc pb hpb pa hpa
      · exact bookInv_mono b _ (List.Sublist.refl _)
          (sublist_of_price_eq (treeModify_sidePrices _ _ _ (fun _ => rfl))) rfl rfl h
    · rcases htL : treeLookup b.bids o.price with _ | lv <;> simp only [htL]
      · obtain ⟨⟨s1, s2⟩, nc, l1, l2⟩ := h
        refine ⟨⟨treeInsert_sorted _ _ s1, s2⟩, ?_, l1, l2⟩
        intro pb hpb pa hpa
        rcases mem_sidePrices_treeInsert _ _ _ hpb with rfl | hpb
        · exact hbid hob pa hpa
        · exact nc pb hpb pa hpa
      · exact bookInv_mono b _
          (sublist_of_price_eq (treeModify_sidePrices _ _ _ (fun _ => rfl)))
          (List.Sublist.refl _) rfl rfl h
  · exact h

theorem bookInv_alloc (b : LimitOrderBook) (h : BookInv b) :
    BookInv { b with order_id := b.order_id + 1,
                     alloc_log := b.alloc_log ++ [b.order_id] } := by
  obtain ⟨hs, nc, l1, l2⟩ := h
  refine ⟨hs, nc, ?_, ?_⟩
  · rw [List.pairwise_append]
    refine ⟨l1, List.pairwise_singleton _ _, ?_⟩
    intro a ha c hc
    rw [List.mem_singleton] at hc
    subst hc
    exact l2 a ha
  · intro i hi
    show i < b.order_id + 1
    rcases List.mem_append.mp hi with hi | hi
    · have := l2 i hi; omega
    · rw [List.mem_singleton] at hi; omega

/-- All the fueled operations preserve the book invariant: sorted sides,
no crossed book at rest, and a strictly increasing bounded allocation
log. -/
theorem inv_all (fuel : Nat) :
    (∀ b (o : Order), BookInv b → BookInv (add_order fuel b o).1) ∧
    (∀ b (o : Order) (lp : Int), BookInv b → BookInv (match_orders fuel b o lp).1) ∧
    (∀ b (q p : Int) (t : Option Nat), BookInv b → BookInv (bidF fuel b q p t).1) ∧
    (∀ b (q p : Int) (t : Option Nat), BookInv b → BookInv (askF fuel b q p t).1) ∧
    (∀ b (order_id : Nat) (q p : Int) (t : Option Nat), BookInv b →
      BookInv (updateF fuel b order_id q p t).1) := by
  induction fuel with
  | zero =>
    exact ⟨fun b o h => h, fun b o lp h => h, fun b q p t h => h,
      fun b q p t h => h, fun b id q p t h => h⟩
  | succ n ih =>
    obtain ⟨ihA, ihM, ihB, ihK, ihU⟩ := ih
    have hM : ∀ b (o : Order) (lp : Int), BookInv b →
        BookInv (match_orders (n + 1) b o lp).1 := by
      intro b o lp h
      unfold match_orders
      dsimp only
      have h1 := matchLoop_inv n b o lp h
      have h2 : ∀ b2 : LimitOrderBook, BookInv b2 →
          BookInv ((if (matchLoop n b o lp).2.quantity > 0 then
            (if (lookupAssoc b2.orders (matchLoop n b o lp).2.id).isSome then
              ((updateF n b2 (matchLoop n b o lp).2.id (matchLoop n b o lp).2.price
                  (matchLoop n b o lp).2.quantity none).1,
                match (updateF n b2 (matchLoop n b o lp).2.id (matchLoop n b o lp).2.price
                    (matchLoop n b o lp).2.quantity none).2 with
                  | Except.ok _ => none
                  | Except.error e => some e)
            else add_order n b2 (matchLoop n b o lp).2)
          else (b2, (none : Option Err))) : LimitOrderBook × Option Err).1 := by
        intro b2 hb2
        split
        · split
          · exact ihU _ _ _ _ _ hb2
          · exact ihA _ _ hb2
        · exact hb2
      rcases treeLookup (oppTree (matchLoop n b o lp).1 (matchLoop n b o lp).2) lp
        with _ | lv
      · exact h2 _ h1
      · dsimp only
        by_cases hlz : lv.quantity ≤ 0 <;>
          simp only [hlz, if_true, if_false, ite_true, ite_false]
        · exact h2 _ (setOppTree_delete_inv _ _ _ h1)
        · exact h2 _ h1
    have hA : ∀ b (o : Order), BookInv b → BookInv (add_order (n + 1) b o).1 := by
      intro b o h
      unfold add_order
      split
      · exact h
      · rcases hob : o.is_bid with _ | _ <;>
          simp only [hob, if_true, if_false, ite_true, ite_false, Bool.false_eq_true]
        · rcases hbb : best_bid b with _ | bb <;> simp only [hbb]
          · refine restOrder_inv b o h (by simp [hob]) ?_
            intro _ pb hpb
            unfold best_bid at hbb
            rw [List.getLast?_eq_none_iff] at hbb
            rw [hbb] at hpb
            simp [sidePrices] at hpb
          · split
            · exact ihM _ _ _ h
            · refine restOrder_inv b o h (by simp [hob]) ?_
              intro _ pb hpb
              have hmax := sorted_last_max b.bids bb h.1.1 hbb
              have := hmax pb hpb
              omega
        · rcases hba : best_ask b with _ | ba <;> simp only [hba]
          · refine restOrder_inv b o h ?_ (by simp [hob])
            intro _ pa hpa
            unfold best_ask at hba
            rw [List.head?_eq_none_iff] at hba
            rw [hba] at hpa
            simp [sidePrices] at hpa
          · split
            · exact ihM _ _ _ h
            · refine restOrder_inv b o h ?_ (by simp [hob])
              intro _ pa hpa
              have hmin := sorted_head_min b.asks ba h.1.2 hba
              have := hmin pa hpa
              omega
    refine ⟨hA, hM, ?_, ?_, ?_⟩
    · intro b q p t h
      unfold bidF
      dsimp only
      exact ihA _ _ (bookInv_alloc b h)
    · intro b q p t h
      unfold askF
      dsimp only
      exact ihA _ _ (bookInv_alloc b h)
    · intro b order_id q p t h
      unfold updateF
      split
      · exact cancelB_inv _ _ _ h
      · rcases lookupAssoc b.orders order_id with _ | o
        · exact h
        · dsimp only
          split
          · split
            · rcases hob : o.is_bid with _ | _ <;>
                simp only [hob, if_true, if_false, ite_true, ite_false, Bool.false_eq_true]
              · exact ihK _ _ _ _ (cancelB_inv _ _ _ h)
              · exact ihB _ _ _ _ (cancelB_inv _ _ _ h)
            · split
              · rcases hob : o.is_bid with _ | _ <;>
                  simp only [hob, if_true, if_false, ite_true, ite_false,
                    Bool.false_eq_true] <;>
                  split <;>
                  refine bookInv_mono b _ ?_ ?_ rfl rfl h <;>
                  first
                    | exact List.Sublist.refl _
                    | exact sublist_of_price_eq (treeModify_sidePrices _ _ _ (fun _ => rfl))
              · rcases hob : o.is_bid with _ | _ <;>
                  simp only [hob, if_true, if_false, ite_true, ite_false, Bool.false_eq_true]
                · exact ihK _ _ _ _ (cancelB_inv _ _ _ h)
                · exact ihB _ _ _ _ (cancelB_inv _ _ _ h)
          · exact h

theorem execOp_inv (b : LimitOrderBook) (op : Op) (h : BookInv b) :
    BookInv (execOp b op) := by
  rcases op with ⟨q, p, t⟩ | ⟨q, p, t⟩ | ⟨id, q, p, t⟩ | ⟨id, t⟩
  · exact (inv_all (fuelFor b)).2.2.1 _ _ _ _ h
  · exact (inv_all (fuelFor b)).2.2.2.1 _ _ _ _ h
  · exact (inv_all (fuelFor b)).2.2.2.2 _ _ _ _ _ h
  · exact cancelB_inv _ _ _ h

theorem execOps_inv (b : LimitOrderBook) (ops : List Op) (h : BookInv b) :
    BookInv (execOps b ops) := by
  induction ops generalizing b with
  | nil => exact h
  | cons op rest ih => exact ih _ (execOp_inv b op h)

theorem init_inv (flag : Bool) : BookInv (LimitOrderBook.init flag) := by
  refine ⟨⟨List.Pairwise.nil, List.Pairwise.nil⟩, ?_, List.Pairwise.nil, ?_⟩
  · intro pb hpb
    simp [LimitOrderBook.init, sidePrices] at hpb
  · intro i hi
    simp [LimitOrderBook.init] at hi

/-- The maximum price key of a side index (`none` when the side is empty). -/
def maxPrice? (t : List LimitLevel) : Option Int :=
  (t.map (fun l => l.price)).foldr
    (fun x m => match m with | none => some x | some y => some (max x y)) none

/-- The minimum price key of a side index (`none` when the side is empty). -/
def minPrice? (t : List LimitLevel) : Option Int :=
  (t.map (fun l => l.price)).foldr
    (fun x m => match m with | none => some x | some y => some (min x y)) none

theorem maxPrice?_mem (t : List LimitLevel) : ∀ m, maxPrice? t = some m →
    m ∈ sidePrices t := by
  induction t with
  | nil => intro m h; exact Option.noConfusion h
  | cons l rest ih =>
    intro m h
    have hstep : maxPrice? (l :: rest) =
        (match maxPrice? rest with
         | none => some l.price
         | some y => some (max l.price y)) := rfl
    rw [hstep] at h
    rcases hfr : maxPrice? rest with _ | y <;> rw [hfr] at h <;> injection h with h
    · simp [sidePrices, ← h]
    · rcases max_choice l.price y with hc | hc
      · rw [← h, hc]
        simp [sidePrices]
      · rw [← h, hc, sidePrices, List.map_cons]
        exact List.mem_cons_of_mem _ (ih y hfr)

theorem minPrice?_mem (t : List LimitLevel) : ∀ m, minPrice? t = some m →
    m ∈ sidePrices t := by
  induction t with
  | nil => intro m h; exact Option.noConfusion h
  | cons l rest ih =>
    intro m h
    have hstep : minPrice? (l :: rest) =
        (match minPrice? rest with
         | none => some l.price
         | some y => some (min l.price y)) := rfl
    rw [hstep] at h
    rcases hfr : minPrice? rest with _ | y <;> rw [hfr] at h <;> injection h with h
    · simp [sidePrices, ← h]
    · rcases min_choice l.price y with hc | hc
      · rw [← h, hc]
        simp [sidePrices]
      · rw [← h, hc, sidePrices, List.map_cons]
        exact List.mem_cons_of_mem _ (ih y hfr)

/-! ### C3 -/

/-- C3: after any finite sequence of public operations from an empty book,
the book is never crossed at rest: whenever the bid side has a maximum
price `mb` and the ask side a minimum price `ma`, `mb < ma` (when either
side is empty the corresponding price is `none` and the claim is
vacuous). -/
theorem no_crossed_book (flag : Bool) (ops : List Op) (mb ma : Int)
    (hmb : maxPrice? (execOps (LimitOrderBook.init flag) ops).bids = some mb)
    (hma : minPrice? (execOps (LimitOrderBook.init flag) ops).asks = some ma) :
    mb < ma := by
  have hinv := execOps_inv _ ops (init_inv flag)
  exact hinv.2.1 mb (maxPrice?_mem _ _ hmb) ma (minPrice?_mem _ _ hma)

/-- C3 witness: after `bid(5,10)` then `ask(5,20)` both sides rest and
`10 < 20`. -/
theorem no_crossed_book_witness :
    maxPrice? (execOps (LimitOrderBook.init false)
      [Op.bid 5 10 none, Op.ask 5 20 none]).bids = some 10 ∧
    minPrice? (execOps (LimitOrderBook.init false)
      [Op.bid 5 10 none, Op.ask 5 20 none]).asks = some 20 ∧
    (10:Int) < 20 :=
  ⟨by decide, by decide,
    no_crossed_book false [Op.bid 5 10 none, Op.ask 5 20 none] 10 20
      (by decide) (by decide)⟩

/-! ### C9 -/

/-- C9: across any finite sequence of public operations from an empty
book, the ghost allocation log — which records, in order, every id handed
out by `bid` / `ask`, including resubmissions performed inside `update` —
is strictly increasing, and hence no id is ever allocated twice. -/
theorem ids_monotonic (flag : Bool) (ops : List Op) :
    ((execOps (LimitOrderBook.init flag) ops).alloc_log).Pairwise (· < ·) ∧
    ((execOps (LimitOrderBook.init flag) ops).alloc_log).Nodup := by
  have hinv := execOps_inv _ ops (init_inv flag)
  exact ⟨hinv.2.2.1, hinv.2.2.1.imp (fun hlt => Nat.ne_of_lt hlt)⟩
